import Mathlib

/-!
A verification development for the consistent-hash routing continuum of a
distributed application platform (`src/src/service/locator/routing.cpp`,
class `continuum_t`).

Conventions of the embedding:
* machine words are `Nat` with explicit reduction `% 2^32` / `% 2^64` where
  the C++ types (`uint32_t` points, `size_t` step counters) wrap;
* byte strings are `List Nat` of values below 256;
* the `double` arithmetic of the constructor (total weight, slices) is
  modelled exactly over `ℚ`; `std::numeric_limits<double>::epsilon()` is the
  exact rational 2^-52;
* the fallible constructor returns `Except`, the `throw` being the error
  branch; lookups that the C++ code would perform on an empty element vector
  via undefined behaviour (`m_elements.front()`) return `none`.

Members declared only in `routing.hpp` (which is not part of the source
tree: the element comparators, `stored_type`, the RNG members) are modelled
from the specification and marked as such in their doc comments.
-/

/- Core marks the rational field operations `@[irreducible]`, which blocks
`decide` on concrete rational arithmetic; proofs here evaluate them through
their (sound, computable) definitions. -/
set_option allowUnsafeReducibility true
attribute [semireducible] Rat.add Rat.mul Rat.inv

namespace Routing

/-! ## 32-bit words and byte layout -/

/-- `2^32`, the modulus of the 32-bit points of the ring. -/
def two32 : Nat := 4294967296

/-- Reduce to a 32-bit word. -/
def mask32 (x : Nat) : Nat := x % two32

/-- 32-bit addition. -/
def add32 (a b : Nat) : Nat := (a + b) % two32

/-- 32-bit left rotation of a word `x < 2^32` by `s < 32` bits. -/
def rotl32 (x s : Nat) : Nat := mask32 (x <<< s) ||| (x >>> (32 - s))

/-- 32-bit bitwise complement. -/
def not32 (x : Nat) : Nat := x ^^^ 4294967295

/-- A little-endian 32-bit word from a list of four bytes: the first byte is
the least significant, exactly the layout `union digest_t` reads on the
little-endian hosts the code runs on. -/
def wordOfBytesLE (bs : List Nat) : Nat := bs.foldr (fun b acc => b + 256 * acc) 0

/-- The four little-endian bytes of a 32-bit word. -/
def wordToBytesLE (x : Nat) : List Nat :=
  [x % 256, x / 256 % 256, x / 65536 % 256, x / 16777216 % 256]

/-- The `n` little-endian bytes of `x % 256^n`: the in-memory layout of an
`n`-byte unsigned integer on the little-endian hosts the code targets. -/
def natToBytesLE (n x : Nat) : List Nat := (List.range n).map (fun i => x / 256 ^ i % 256)

/-- The UTF-8 encoding of one code point (`String` stores code points; C++
`std::string` holds the encoded bytes that `value.data()`/`key.data()` feed
to the hash). -/
def utf8Bytes (c : Nat) : List Nat :=
  if c < 128 then [c]
  else if c < 2048 then [192 ||| (c >>> 6), 128 ||| (c &&& 63)]
  else if c < 65536 then
    [224 ||| (c >>> 12), 128 ||| ((c >>> 6) &&& 63), 128 ||| (c &&& 63)]
  else
    [240 ||| (c >>> 18), 128 ||| ((c >>> 12) &&& 63),
     128 ||| ((c >>> 6) &&& 63), 128 ||| (c &&& 63)]

/-- The bytes of a string as C++ sees them: the UTF-8 encoding of its code
points. -/
def strBytes (s : String) : List Nat := s.data.flatMap (fun ch => utf8Bytes ch.toNat)

/-! ## MD5 (`mhash(MHASH_MD5, …)`)

`routing.cpp` obtains its 16-byte digests from libmhash's MD5 (RFC 1321).
The reference function below is the RFC algorithm on byte lists. -/

/-- The 64 MD5 sine-table constants `⌊|sin (i+1)| · 2^32⌋`. -/
def md5K : List Nat :=
  [3614090360, 3905402710, 606105819, 3250441966, 4118548399, 1200080426,
   2821735955, 4249261313, 1770035416, 2336552879, 4294925233, 2304563134,
   1804603682, 4254626195, 2792965006, 1236535329, 4129170786, 3225465664,
   643717713, 3921069994, 3593408605, 38016083, 3634488961, 3889429448,
   568446438, 3275163606, 4107603335, 1163531501, 2850285829, 4243563512,
   1735328473, 2368359562, 4294588738, 2272392833, 1839030562, 4259657740,
   2763975236, 1272893353, 4139469664, 3200236656, 681279174, 3936430074,
   3572445317, 76029189, 3654602809, 3873151461, 530742520, 3299628645,
   4096336452, 1126891415, 2878612391, 4237533241, 1700485571, 2399980690,
   4293915773, 2240044497, 1873313359, 4264355552, 2734768916, 1309151649,
   4149444226, 3174756917, 718787259, 3951481745]

/-- The MD5 per-round left-rotation amounts. -/
def md5S : List Nat :=
  [7, 12, 17, 22, 7, 12, 17, 22, 7, 12, 17, 22, 7, 12, 17, 22,
   5, 9, 14, 20, 5, 9, 14, 20, 5, 9, 14, 20, 5, 9, 14, 20,
   4, 11, 16, 23, 4, 11, 16, 23, 4, 11, 16, 23, 4, 11, 16, 23,
   6, 10, 15, 21, 6, 10, 15, 21, 6, 10, 15, 21, 6, 10, 15, 21]

/-- The MD5 round function: F, G, H or I depending on the round index. -/
def md5Mix (i b c d : Nat) : Nat :=
  if i < 16 then (b &&& c) ||| (not32 b &&& d)
  else if i < 32 then (d &&& b) ||| (not32 d &&& c)
  else if i < 48 then b ^^^ c ^^^ d
  else c ^^^ (b ||| not32 d)

/-- Which message word round `i` reads. -/
def md5MsgIndex (i : Nat) : Nat :=
  if i < 16 then i
  else if i < 32 then (5 * i + 1) % 16
  else if i < 48 then (3 * i + 5) % 16
  else (7 * i) % 16

/-- One of the 64 MD5 rounds over the state `(a, b, c, d)`. -/
def md5Step (M : List Nat) (st : Nat × Nat × Nat × Nat) (i : Nat) :
    Nat × Nat × Nat × Nat :=
  let (a, b, c, d) := st
  let f := add32 (add32 (add32 a (md5Mix i b c d)) (md5K.getD i 0)) (M.getD (md5MsgIndex i) 0)
  (d, add32 b (rotl32 f (md5S.getD i 0)), b, c)

/-- Compress one 64-byte block into the running state. -/
def md5Block (st : Nat × Nat × Nat × Nat) (block : List Nat) : Nat × Nat × Nat × Nat :=
  let M := (List.range 16).map (fun j => wordOfBytesLE ((block.drop (4 * j)).take 4))
  let (a, b, c, d) := (List.range 64).foldl (md5Step M) st
  (add32 a st.1, add32 b st.2.1, add32 c st.2.2.1, add32 d st.2.2.2)

/-- MD5 padding: a `0x80` byte, zeros to 56 mod 64, then the bit length as a
64-bit little-endian integer. -/
def md5Pad (msg : List Nat) : List Nat :=
  let z := (56 + 64 - (msg.length + 1) % 64) % 64
  msg ++ [128] ++ List.replicate z 0 ++ natToBytesLE 8 (8 * msg.length % 2 ^ 64)

/-- Split a list into 64-byte blocks: structural recursion on a length
bound, so the kernel can evaluate it. -/
def md5ChunksFuel : Nat → List Nat → List (List Nat)
  | _, [] => []
  | 0, _ :: _ => []
  | fuel + 1, b :: t => (b :: t).take 64 :: md5ChunksFuel fuel ((b :: t).drop 64)

/-- Split a padded message into 64-byte blocks. -/
def md5Chunks (l : List Nat) : List (List Nat) := md5ChunksFuel l.length l

/-- The 16-byte MD5 digest of a byte list, in the byte order `mhash_deinit`
writes into `digest.hashed`. -/
def md5 (msg : List Nat) : List Nat :=
  let st := (md5Chunks (md5Pad msg)).foldl md5Block (1732584193, 4023233417, 2562383102, 271733878)
  wordToBytesLE st.1 ++ wordToBytesLE st.2.1 ++ wordToBytesLE st.2.2.1 ++ wordToBytesLE st.2.2.2

/-- The four 4-byte points of a 16-byte digest, as the union `digest_t` of
`routing.cpp` reads them: `points[i]` is the little-endian word in bytes
`4i … 4i+3` of `hashed`. -/
def digestPoints (h : List Nat) : List Nat :=
  (List.range 4).map (fun i => wordOfBytesLE ((h.drop (4 * i)).take 4))

/-! ## The routing group and the continuum -/

/-- One ring element (`continuum_t::element_t`, declared in `routing.hpp`):
a 32-bit `point` and the owning member's identifier `value`. -/
structure element_t where
  point : Nat
  value : String
deriving DecidableEq

/-- Modelled from the spec: `continuum_t::stored_type` is declared in
`routing.hpp`, which is not in the source tree.  Per §3 of the spec it is a
mapping (a `std::map` snapshot: unique keys, listed in iteration order) from
member identifier to a strictly positive real weight; the real weights are
modelled exactly as rationals. -/
abbrev stored_type : Type := List (String × ℚ)

/-- `std::numeric_limits<double>::epsilon() = 2^-52`, exactly. -/
def eps : ℚ := mkRat 1 4503599627370496

/-- The total weight `boost::accumulate(group | map_values, 0.0f)`
(`routing.cpp` line 41), with the floating-point accumulation modelled
exactly over `ℚ`. -/
def totalWeight (group : stored_type) : ℚ := (group.map Prod.snd).sum

/-- `::lround`: round half away from zero, the rounding of
`routing.cpp` line 68. -/
def lroundQ (x : ℚ) : ℤ := if 0 ≤ x then ⌊x + 1 / 2⌋ else -⌊1 / 2 - x⌋

/-- The hash-round count of a member of weight `w`
(`routing.cpp` lines 63–68): `slice = w / weight`,
`steps = lround(slice * (64 * length))`.  `::lround` returns `long` and the
result is stored into a `size_t`; for the strictly positive weights of the
spec's group type (§3) the value is nonnegative, where that conversion is
`Int.toNat`. -/
def stepsOf (group : stored_type) (w : ℚ) : Nat :=
  (lroundQ (w / totalWeight group * (64 * group.length))).toNat

/-- The ring elements one member `(value, weight)` contributes
(`routing.cpp` lines 70–82): for each `step < steps`, the four points of
`MD5(value.bytes ++ step)` — `step` hashed as the 8 in-memory bytes of a
`size_t` — each paired with `value`, in the array order of
`digest.points`. -/
def memberElements (group : stored_type) (m : String × ℚ) : List element_t :=
  (List.range (stepsOf group m.2)).flatMap (fun step =>
    (digestPoints (md5 (strBytes m.1 ++ natToBytesLE 8 step))).map
      (fun p => { point := p, value := m.1 }))

/-- All elements appended via `std::back_inserter` over the group loop of
`routing.cpp` lines 61–88, in map-iteration order. -/
def buildElements (group : stored_type) : List element_t :=
  group.flatMap (memberElements group)

/-- Modelled from the spec: `element_t`'s comparison operator is declared in
`routing.hpp`, which is not in the source tree; per §4.1 of the spec the
sort orders by `point` ascending with no secondary key. -/
def pointLe (a b : element_t) : Prop := a.point ≤ b.point

instance : DecidableRel pointLe := fun a b => Nat.decLe a.point b.point

instance : IsTotal element_t pointLe := ⟨fun a b => Nat.le_total a.point b.point⟩

instance : IsTrans element_t pointLe := ⟨fun _ _ _ => Nat.le_trans⟩

/-- The sorted ring (`std::sort(m_elements.begin(), m_elements.end())`,
`routing.cpp` line 91).  `std::sort` leaves the relative order of
equal-point elements unspecified; it is modelled here by a stable sort by
`point` — one of the orders `std::sort` may produce. -/
def ring (group : stored_type) : List element_t :=
  List.insertionSort pointLe (buildElements group)

/-- Modelled from the spec: the generator `m_rng` (a Mersenne-style 32-bit
PRNG) and the uniform distribution `m_distribution` over the point space are
declared in `routing.hpp`, which is not in the source tree.  The generator
state is modelled as a `Nat` and one draw as a 32-bit linear congruential
step; no claim depends on the distribution of the draws. -/
def rngDraw (s : Nat) : Nat := (1103515245 * s + 12345) % two32

/-- The continuum (`class continuum_t`): the sorted element ring and the
state of the RNG backing keyless lookups.  The logger member is pure
diagnostics and is not modelled. -/
structure continuum_t where
  m_elements : List element_t
  m_rng : Nat
deriving DecidableEq

/-- The continuum a successful construction from `group` builds, seeding the
RNG from the entropy sample `seed` (`std::random_device rd; m_rng.seed(rd())`,
`routing.cpp` line 99). -/
def continuum_of (group : stored_type) (seed : Nat) : continuum_t :=
  { m_elements := ring group, m_rng := seed }

/-- The constructor `continuum_t::continuum_t` (`routing.cpp` lines 37–100):
`throw cocaine::error_t(…)` when the group is empty or its total weight is
below `std::numeric_limits<double>::epsilon()`, otherwise the fully built
continuum.  `seed` stands for the entropy the `std::random_device` yields. -/
def continuum_mk (group : stored_type) (seed : Nat) : Except String continuum_t :=
  if group.length = 0 ∨ totalWeight group < eps then
    Except.error "the total weight of the routing group must be positive"
  else
    Except.ok (continuum_of group seed)

/-- `std::upper_bound(m_elements.begin(), m_elements.end(), point)` over a
range sorted by `point`: the first element whose point strictly exceeds
`point` (the point/element comparator of `routing.hpp` compares the
points), or `none` past the end. -/
def upperBoundElem (es : List element_t) (point : Nat) : Option element_t :=
  es.find? (fun e => decide (point < e.point))

/-- The target point of a keyed lookup (`routing.cpp` lines 104–113): the
XOR-fold `boost::accumulate(digest.points, 0, std::bit_xor<point_type>())`
of the four little-endian words of `MD5(key)`. -/
def keyPoint (key : String) : Nat :=
  (digestPoints (md5 (strBytes key))).foldl Nat.xor 0

/-- `continuum_t::get(const std::string& key)` (`routing.cpp` lines
102–126): hash, fold, upper-bound, wrapping to `m_elements.front()` when the
point is above the whole ring.  `front()` on an empty vector is undefined
behaviour in C++ and surfaces as `none`; the method is `const`, so the state
is returned unchanged. -/
def keyedGet (c : continuum_t) (key : String) : Option String × continuum_t :=
  let rv := match upperBoundElem c.m_elements (keyPoint key) with
    | some e => some e.value
    | none => c.m_elements.head?.map element_t.value
  (rv, c)

/-- `continuum_t::get()` (`routing.cpp` lines 128–142): draw a random point,
then the same upper-bound selection; the draw advances the (`mutable`) RNG
and touches nothing else. -/
def keylessGet (c : continuum_t) : Option String × continuum_t :=
  let point := rngDraw c.m_rng
  let rv := match upperBoundElem c.m_elements point with
    | some e => some e.value
    | none => c.m_elements.head?.map element_t.value
  (rv, { c with m_rng := rngDraw c.m_rng })

/-- `continuum_t::all()` (`routing.cpp` lines 144–158): the `(point, value)`
tuples of the ring, in ring order; `const`, state unchanged. -/
def allTuples (c : continuum_t) : List (Nat × String) × continuum_t :=
  (c.m_elements.map (fun e => (e.point, e.value)), c)

/-! ## Well-formedness of the input group

A `stored_type` value is a snapshot of a `std::map`, so its keys are unique;
§3 of the spec makes every weight strictly positive.  The predicates are
`Bool`-valued so concrete instances evaluate by `decide`.  Theorems below
quantify over all key-distinct lists, which subsumes every map snapshot. -/

/-- Pairwise-distinct member identifiers (`std::map` keys are unique). -/
def keysDistinct : List String → Bool
  | [] => true
  | k :: rest => rest.all (fun k2 => decide (k ≠ k2)) && keysDistinct rest

/-- The group is a valid `stored_type` snapshot: distinct keys and strictly
positive weights (§3 of the spec). -/
def wfGroup (group : stored_type) : Bool :=
  keysDistinct (group.map Prod.fst) && group.all (fun m => decide (0 < m.2))

/-- The constructor's validity check passes (`routing.cpp` lines 50–52):
the group is non-empty and its total weight is not below machine epsilon. -/
def accepted (group : stored_type) : Bool :=
  decide (group.length ≠ 0) && !decide (totalWeight group < eps)

/-! Sanity vectors for the hash embedding, kernel-checked: the RFC 1321
test digests, and one full fold as `get` computes it. -/

theorem md5_rfc_empty :
    md5 [] = [212, 29, 140, 217, 143, 0, 178, 4, 233, 128, 9, 152, 236, 248, 66, 126] := by
  decide

theorem md5_rfc_abc :
    md5 (strBytes "abc") =
      [144, 1, 80, 152, 60, 210, 79, 176, 214, 150, 63, 125, 40, 225, 127, 114] := by
  decide

set_option maxRecDepth 8192 in
theorem digestPoints_fold_vector :
    (digestPoints (md5 (strBytes "test-key-42")) =
      [2668907877, 2113794417, 2525235385, 3704670414]) ∧
    (digestPoints (md5 (strBytes "test-key-42"))).foldl Nat.xor 0 = 2830990435 := by
  constructor
  · decide
  · decide

/-! ## Structure of the built ring -/

theorem digestPoints_length (h : List Nat) : (digestPoints h).length = 4 := by
  simp [digestPoints]

theorem memberElements_length (group : stored_type) (m : String × ℚ) :
    (memberElements group m).length = 4 * stepsOf group m.2 := by
  simp [memberElements, List.length_flatMap, Function.comp_def, digestPoints_length,
    List.map_const]
  omega

theorem ring_perm (group : stored_type) : (ring group).Perm (buildElements group) :=
  List.perm_insertionSort pointLe (buildElements group)

theorem ring_sorted (group : stored_type) : List.Sorted pointLe (ring group) :=
  List.sorted_insertionSort pointLe (buildElements group)

theorem mem_ring_iff {group : stored_type} {e : element_t} :
    e ∈ ring group ↔ e ∈ buildElements group :=
  (ring_perm group).mem_iff

theorem ring_length (group : stored_type) :
    (ring group).length = (group.map (fun m => 4 * stepsOf group m.2)).sum := by
  rw [(ring_perm group).length_eq]
  simp [buildElements, List.length_flatMap, Function.comp_def, memberElements_length]

/-- Every element of the ring carries the identifier of a member that
contributes at least one hash round. -/
theorem of_mem_buildElements {group : stored_type} {e : element_t}
    (he : e ∈ buildElements group) :
    ∃ m ∈ group, e.value = m.1 ∧ 0 < stepsOf group m.2 := by
  rw [buildElements, List.mem_flatMap] at he
  obtain ⟨m, hm, hme⟩ := he
  refine ⟨m, hm, ?_⟩
  rw [memberElements, List.mem_flatMap] at hme
  obtain ⟨step, hstep, hpe⟩ := hme
  rw [List.mem_map] at hpe
  obtain ⟨p, _, rfl⟩ := hpe
  exact ⟨rfl, Nat.pos_of_ne_zero (by rintro h; rw [h] at hstep; simp at hstep)⟩

/-- A lookup only ever answers with the value of one of its ring elements. -/
theorem keyedGet_mem {c : continuum_t} {key : String} {v : String}
    (h : (keyedGet c key).1 = some v) : ∃ e ∈ c.m_elements, e.value = v := by
  rw [keyedGet] at h
  simp only at h
  rcases hf : upperBoundElem c.m_elements (keyPoint key) with _ | e
  · rw [hf] at h
    simp only [Option.map] at h
    rcases hh : c.m_elements.head? with _ | e0
    · rw [hh] at h; simp at h
    · rw [hh] at h
      simp only [Option.map] at h
      refine ⟨e0, List.mem_of_mem_head? hh, by injection h⟩
  · rw [hf] at h
    exact ⟨e, List.mem_of_find?_eq_some hf, by injection h⟩

/-- Same for the keyless lookup. -/
theorem keylessGet_mem {c : continuum_t} {v : String}
    (h : (keylessGet c).1 = some v) : ∃ e ∈ c.m_elements, e.value = v := by
  rw [keylessGet] at h
  simp only at h
  rcases hf : upperBoundElem c.m_elements (rngDraw c.m_rng) with _ | e
  · rw [hf] at h
    simp only [Option.map] at h
    rcases hh : c.m_elements.head? with _ | e0
    · rw [hh] at h; simp at h
    · rw [hh] at h
      simp only [Option.map] at h
      refine ⟨e0, List.mem_of_mem_head? hh, by injection h⟩
  · rw [hf] at h
    exact ⟨e, List.mem_of_find?_eq_some hf, by injection h⟩

/-! ## Consequences of the validity check -/

theorem eps_pos : 0 < eps := by decide

theorem accepted_iff {group : stored_type} :
    accepted group = true ↔ group.length ≠ 0 ∧ ¬totalWeight group < eps := by
  simp [accepted]

theorem totalWeight_pos {group : stored_type} (h : accepted group = true) :
    0 < totalWeight group := by
  rcases accepted_iff.mp h with ⟨_, hW⟩
  exact lt_of_lt_of_le eps_pos (not_lt.mp hW)

theorem wf_pos {group : stored_type} (h : wfGroup group = true) :
    ∀ m ∈ group, (0 : ℚ) < m.2 := by
  rw [wfGroup, Bool.and_eq_true] at h
  intro m hm
  have := List.all_eq_true.mp h.2 m hm
  simpa using this

theorem keysDistinct_pairwise : ∀ {l : List String}, keysDistinct l = true →
    l.Pairwise (· ≠ ·) := by
  intro l
  induction l with
  | nil => intro; exact List.Pairwise.nil
  | cons k rest ih =>
    intro h
    rw [keysDistinct, Bool.and_eq_true] at h
    refine List.Pairwise.cons (fun k2 hk2 => ?_) (ih h.2)
    have := List.all_eq_true.mp h.1 k2 hk2
    simpa using this

/-- Distinct keys: two members of a well-formed group with the same
identifier are one and the same entry. -/
theorem wf_key_inj {group : stored_type} (h : wfGroup group = true) :
    ∀ m1 ∈ group, ∀ m2 ∈ group, m1.1 = m2.1 → m1 = m2 := by
  rw [wfGroup, Bool.and_eq_true] at h
  have hnd : (group.map Prod.fst).Nodup := keysDistinct_pairwise h.1
  intro m1 h1 m2 h2 he
  exact List.inj_on_of_nodup_map hnd h1 h2 he

/-- A non-empty list of rationals has an entry at or above the average. -/
theorem exists_mul_length_le_sum :
    ∀ (l : List ℚ), l ≠ [] → ∃ x ∈ l, l.sum ≤ x * l.length := by
  intro l
  induction l with
  | nil => intro h; exact absurd rfl h
  | cons a t ih =>
    intro _
    rcases ht : t with _ | ⟨b, t2⟩
    · exact ⟨a, List.mem_singleton.mpr rfl, by simp⟩
    · rw [← ht]
      have hne : t ≠ [] := by rw [ht]; exact List.cons_ne_nil b t2
      obtain ⟨x, hx, hle⟩ := ih hne
      by_cases hax : a ≤ x
      · refine ⟨x, List.mem_cons_of_mem a hx, ?_⟩
        have : (a :: t).sum = a + t.sum := List.sum_cons
        rw [this, List.length_cons]
        push_cast
        nlinarith
      · refine ⟨a, List.mem_cons_self a t, ?_⟩
        have hxa : x ≤ a := le_of_not_le hax
        have hcast : (0 : ℚ) ≤ t.length := Nat.cast_nonneg t.length
        have : x * t.length ≤ a * t.length := mul_le_mul_of_nonneg_right hxa hcast
        rw [List.sum_cons, List.length_cons]
        push_cast
        nlinarith

theorem lroundQ_nonneg {x : ℚ} (h : 0 ≤ x) : 0 ≤ lroundQ x := by
  rw [lroundQ, if_pos h]
  rw [Int.le_floor]
  push_cast
  linarith

theorem le_lroundQ {n : ℤ} {x : ℚ} (hn : (0 : ℚ) ≤ x) (h : (n : ℚ) ≤ x) :
    n ≤ lroundQ x := by
  rw [lroundQ, if_pos hn, Int.le_floor]
  linarith

/-- Some member of an accepted well-formed group gets at least the full 64
hash rounds: its weight is at or above the average `W / L`. -/
theorem exists_member_steps_ge {group : stored_type}
    (ha : accepted group = true) :
    ∃ m ∈ group, 64 ≤ stepsOf group m.2 := by
  have hne : group ≠ [] := by
    intro h
    exact (accepted_iff.mp ha).1 (by rw [h]; rfl)
  have hmapne : group.map Prod.snd ≠ [] := by
    simpa using hne
  obtain ⟨w, hwmem, hle⟩ := exists_mul_length_le_sum (group.map Prod.snd) hmapne
  obtain ⟨m, hm, rfl⟩ := List.mem_map.mp hwmem
  refine ⟨m, hm, ?_⟩
  have hW : 0 < totalWeight group := totalWeight_pos ha
  have hlen : (group.map Prod.snd).length = group.length := List.length_map group Prod.snd
  rw [hlen] at hle
  have hslice : (64 : ℚ) ≤ m.2 / totalWeight group * (64 * group.length) := by
    rw [div_mul_eq_mul_div, le_div_iff hW]
    have h1 : totalWeight group ≤ m.2 * group.length := hle
    nlinarith
  have hx : (0 : ℚ) ≤ m.2 / totalWeight group * (64 * group.length) := by
    linarith
  have h64 : (64 : ℤ) ≤ lroundQ (m.2 / totalWeight group * (64 * group.length)) :=
    le_lroundQ hx (by exact_mod_cast hslice)
  rw [stepsOf]
  calc (64 : ℕ) = (64 : ℤ).toNat := rfl
  _ ≤ _ := Int.toNat_le_toNat h64

/-- An accepted well-formed group builds a non-empty ring. -/
theorem ring_ne_nil {group : stored_type} (ha : accepted group = true) :
    ring group ≠ [] := by
  obtain ⟨m, hm, hsteps⟩ := exists_member_steps_ge ha
  have hterm : 4 * stepsOf group m.2 ∈ group.map (fun m => 4 * stepsOf group m.2) :=
    List.mem_map_of_mem _ hm
  have hpos : 0 < (ring group).length := by
    rw [ring_length]
    have hle : 4 * stepsOf group m.2 ≤ (group.map (fun m => 4 * stepsOf group m.2)).sum :=
      List.single_le_sum (fun x _ => Nat.zero_le x) _ hterm
    omega
  exact List.ne_nil_of_length_pos hpos

/-! ## The upper-bound selection -/

/-- On a point-sorted list, the first element strictly above `p` has minimal
point among all elements strictly above `p`. -/
theorem find?_gt_min {es : List element_t} {p : Nat} {e : element_t}
    (hs : List.Sorted pointLe es)
    (h : es.find? (fun e => decide (p < e.point)) = some e) :
    e ∈ es ∧ p < e.point ∧ ∀ e2 ∈ es, p < e2.point → e.point ≤ e2.point := by
  induction es with
  | nil => simp at h
  | cons a t ih =>
    by_cases hpa : p < a.point
    · rw [List.find?_cons_of_pos _ (by simpa using hpa)] at h
      injection h with he
      subst he
      refine ⟨List.mem_cons_self _ _, hpa, ?_⟩
      intro e2 he2 _
      rcases List.mem_cons.mp he2 with rfl | he2
      · exact le_refl _
      · exact List.rel_of_sorted_cons hs e2 he2
    · rw [List.find?_cons_of_neg _ (by simpa using hpa)] at h
      obtain ⟨hmem, hpe, hmin⟩ := ih hs.of_cons h
      refine ⟨List.mem_cons_of_mem a hmem, hpe, ?_⟩
      intro e2 he2 hpe2
      rcases List.mem_cons.mp he2 with rfl | he2
      · exact absurd hpe2 hpa
      · exact hmin e2 he2 hpe2

/-- A lookup on a non-empty element list always produces a value. -/
theorem upperOrFront_isSome {es : List element_t} (hne : es ≠ []) (p : Nat) :
    (match upperBoundElem es p with
      | some e => some e.value
      | none => es.head?.map element_t.value).isSome = true := by
  rcases hf : upperBoundElem es p with _ | e
  · simp [List.head?_eq_head hne]
  · simp

/-! ## C1: keyed lookup returns the successor element on the ring -/

/-- C1.  For every constructed continuum and key `key`, `get(key)` folds the
MD5 digest of `key` into the target point `keyPoint key` (the XOR of its
four little-endian words) and returns the value of a ring element whose
point is strictly greater than the target and minimal with that property;
when no ring point is strictly greater it returns the value of the first
(smallest) element of the sorted ring. -/
theorem keyed_lookup_selects_successor (group : stored_type) (seed : Nat) (key : String)
    (ha : accepted group = true) :
    ∃ e ∈ (continuum_of group seed).m_elements,
      (keyedGet (continuum_of group seed) key).1 = some e.value ∧
      ((keyPoint key < e.point ∧
        ∀ e2 ∈ (continuum_of group seed).m_elements,
          keyPoint key < e2.point → e.point ≤ e2.point) ∨
       ((∀ e2 ∈ (continuum_of group seed).m_elements, e2.point ≤ keyPoint key) ∧
        (continuum_of group seed).m_elements.head? = some e)) := by
  have hs : List.Sorted pointLe (ring group) := ring_sorted group
  have hne : ring group ≠ [] := ring_ne_nil ha
  have hm : (continuum_of group seed).m_elements = ring group := rfl
  rcases hf : upperBoundElem (ring group) (keyPoint key) with _ | e
  · have hall := List.find?_eq_none.mp hf
    have hhead : (ring group).head? = some ((ring group).head hne) :=
      List.head?_eq_head hne
    refine ⟨(ring group).head hne, by rw [hm]; exact List.head_mem hne, ?_, Or.inr ⟨?_, ?_⟩⟩
    · show (match upperBoundElem (ring group) (keyPoint key) with
        | some e => some e.value
        | none => (ring group).head?.map element_t.value) = _
      rw [hf, hhead]
      rfl
    · intro e2 he2
      rw [hm] at he2
      have := hall e2 he2
      simpa using this
    · rw [hm]; exact hhead
  · obtain ⟨hmem, hlt, hmin⟩ := find?_gt_min hs hf
    refine ⟨e, by rw [hm]; exact hmem, ?_, Or.inl ⟨hlt, fun e2 he2 => ?_⟩⟩
    · show (match upperBoundElem (ring group) (keyPoint key) with
        | some e => some e.value
        | none => (ring group).head?.map element_t.value) = _
      rw [hf]
    · rw [hm] at he2
      exact hmin e2 he2

/-- Witness for C1: a concrete singleton group and key. -/
theorem keyed_lookup_selects_successor_witness :
    accepted [("a", (1 : ℚ))] = true ∧
    (∃ e ∈ (continuum_of [("a", (1 : ℚ))] 0).m_elements,
      (keyedGet (continuum_of [("a", (1 : ℚ))] 0) "x").1 = some e.value ∧
      ((keyPoint "x" < e.point ∧
        ∀ e2 ∈ (continuum_of [("a", (1 : ℚ))] 0).m_elements,
          keyPoint "x" < e2.point → e.point ≤ e2.point) ∨
       ((∀ e2 ∈ (continuum_of [("a", (1 : ℚ))] 0).m_elements, e2.point ≤ keyPoint "x") ∧
        (continuum_of [("a", (1 : ℚ))] 0).m_elements.head? = some e))) :=
  ⟨by decide, keyed_lookup_selects_successor [("a", (1 : ℚ))] 0 "x" (by decide)⟩

/-! ## C4: construction success makes every lookup total -/

/-- C4.  For every group meeting the construction precondition, the built
element sequence is non-empty, construction succeeds, and `get(key)`,
keyless `get()` and `all()` are total: every lookup yields a value and the
wrap-around access to the first element is defined. -/
theorem construction_makes_lookups_total (group : stored_type) (seed : Nat)
    (hw : wfGroup group = true) (ha : accepted group = true) :
    ring group ≠ [] ∧
    continuum_mk group seed = Except.ok (continuum_of group seed) ∧
    (∀ key, ((keyedGet (continuum_of group seed) key).1).isSome = true) ∧
    ((keylessGet (continuum_of group seed)).1).isSome = true ∧
    (allTuples (continuum_of group seed)).1.length = (ring group).length := by
  have hne : ring group ≠ [] := ring_ne_nil ha
  refine ⟨hne, ?_, fun key => upperOrFront_isSome hne _, upperOrFront_isSome hne _, ?_⟩
  · rw [continuum_mk, if_neg]
    rcases accepted_iff.mp ha with ⟨h1, h2⟩
    rintro (h | h)
    · exact h1 h
    · exact h2 h
  · simp [allTuples, continuum_of]

/-- Witness for C4: the concrete two-member group `{a ↦ 3, b ↦ 1}`. -/
theorem construction_makes_lookups_total_witness :
    wfGroup [("a", (3 : ℚ)), ("b", (1 : ℚ))] = true ∧
    accepted [("a", (3 : ℚ)), ("b", (1 : ℚ))] = true ∧
    (ring [("a", (3 : ℚ)), ("b", (1 : ℚ))] ≠ [] ∧
     continuum_mk [("a", (3 : ℚ)), ("b", (1 : ℚ))] 7 =
       Except.ok (continuum_of [("a", (3 : ℚ)), ("b", (1 : ℚ))] 7) ∧
     (∀ key, ((keyedGet (continuum_of [("a", (3 : ℚ)), ("b", (1 : ℚ))] 7) key).1).isSome = true) ∧
     ((keylessGet (continuum_of [("a", (3 : ℚ)), ("b", (1 : ℚ))] 7)).1).isSome = true ∧
     (allTuples (continuum_of [("a", (3 : ℚ)), ("b", (1 : ℚ))] 7)).1.length =
       (ring [("a", (3 : ℚ)), ("b", (1 : ℚ))]).length) :=
  ⟨by decide, by decide,
    construction_makes_lookups_total [("a", (3 : ℚ)), ("b", (1 : ℚ))] 7 (by decide) (by decide)⟩

/-! ## C8: construction depends on nothing but the group -/

/-- C8.  Construction is deterministic: the element sequence built from a
group is a pure function of the group contents — in particular it does not
depend on the entropy the RNG is seeded with, the only other input of the
constructor. -/
theorem construction_deterministic (group : stored_type) (s1 s2 : Nat) :
    (continuum_mk group s1).map continuum_t.m_elements =
    (continuum_mk group s2).map continuum_t.m_elements := by
  rw [continuum_mk, continuum_mk]
  by_cases h : group.length = 0 ∨ totalWeight group < eps
  · rw [if_pos h, if_pos h]
  · rw [if_neg h, if_neg h]
    rfl

/-! ## C9: lookups do not touch the ring -/

/-- C9.  No lookup mutates the element sequence: `get(key)` and `all()`
return the state unchanged, and keyless `get()` changes exactly the RNG
state, leaving the elements untouched. -/
theorem lookups_preserve_state (c : continuum_t) (key : String) :
    (keyedGet c key).2 = c ∧ (allTuples c).2 = c ∧
    (keylessGet c).2 = { m_elements := c.m_elements, m_rng := rngDraw c.m_rng } ∧
    (keylessGet c).2.m_elements = c.m_elements := by
  refine ⟨rfl, rfl, rfl, ?_⟩
  show ({ c with m_rng := rngDraw c.m_rng } : continuum_t).m_elements = c.m_elements
  rfl

/-! ## C10: lookups only ever answer with a member of the group -/

/-- C10.  Membership closure: whatever `get(key)` (any key, the empty string
included) or keyless `get()` returns is the identifier of some member of the
group the continuum was built from. -/
theorem lookup_value_is_member (group : stored_type) (seed : Nat) :
    (∀ key v, (keyedGet (continuum_of group seed) key).1 = some v →
      v ∈ group.map Prod.fst) ∧
    (∀ v, (keylessGet (continuum_of group seed)).1 = some v →
      v ∈ group.map Prod.fst) := by
  constructor
  · intro key v h
    obtain ⟨e, he, rfl⟩ := keyedGet_mem h
    obtain ⟨m, hmem, hv, _⟩ := of_mem_buildElements (mem_ring_iff.mp he)
    rw [hv]
    exact List.mem_map_of_mem Prod.fst hmem
  · intro v h
    obtain ⟨e, he, rfl⟩ := keylessGet_mem h
    obtain ⟨m, hmem, hv, _⟩ := of_mem_buildElements (mem_ring_iff.mp he)
    rw [hv]
    exact List.mem_map_of_mem Prod.fst hmem

/-! ## C2: the size of the ring -/

/-- C2.  For every well-formed group accepted by construction, the ring has
exactly `4 · Σ_v lround(w_v / W · 64 · L)` elements: each hash round
contributes four elements, and member `v` gets `lround(slice · 64 · L)`
rounds, `lround` rounding half away from zero. -/
theorem ring_size_formula (group : stored_type)
    (hw : wfGroup group = true) (ha : accepted group = true) :
    ((ring group).length : ℤ) =
      4 * (group.map (fun m =>
        lroundQ (m.2 / totalWeight group * (64 * group.length)))).sum := by
  have hW : 0 < totalWeight group := totalWeight_pos ha
  rw [ring_length, Nat.cast_list_sum, List.map_map, ← List.sum_map_mul_left]
  apply congrArg List.sum
  apply List.map_congr_left
  intro m hm
  have hx : (0 : ℚ) ≤ m.2 / totalWeight group * (64 * group.length) := by
    have hpos := wf_pos hw m hm
    have h1 : 0 ≤ m.2 / totalWeight group := le_of_lt (div_pos hpos hW)
    have h2 : (0 : ℚ) ≤ 64 * group.length := by positivity
    exact mul_nonneg h1 h2
  show ((4 * stepsOf group m.2 : ℕ) : ℤ) = _
  have hc : ((4 * stepsOf group m.2 : ℕ) : ℤ) = 4 * ((stepsOf group m.2 : ℕ) : ℤ) := by
    push_cast
    ring
  rw [hc, stepsOf, Int.toNat_of_nonneg (lroundQ_nonneg hx)]

/-- Witness for C2: the skewed two-member group `{a ↦ 3, b ↦ 1}`. -/
theorem ring_size_formula_witness :
    wfGroup [("a", (3 : ℚ)), ("b", (1 : ℚ))] = true ∧
    accepted [("a", (3 : ℚ)), ("b", (1 : ℚ))] = true ∧
    ((ring [("a", (3 : ℚ)), ("b", (1 : ℚ))]).length : ℤ) =
      4 * ([("a", (3 : ℚ)), ("b", (1 : ℚ))].map (fun m =>
        lroundQ (m.2 / totalWeight [("a", (3 : ℚ)), ("b", (1 : ℚ))] *
          (64 * ([("a", (3 : ℚ)), ("b", (1 : ℚ))] : stored_type).length)))).sum :=
  ⟨by decide, by decide,
    ring_size_formula [("a", (3 : ℚ)), ("b", (1 : ℚ))] (by decide) (by decide)⟩

/-! ## C3: when construction fails

The constructor's check (`routing.cpp` line 50) is
`weight < std::numeric_limits<double>::epsilon()` — a *strict* comparison —
so a group whose total weight equals epsilon exactly is accepted, not
rejected. -/

/-- Counterexample to C3 as stated: the singleton group of weight exactly
`ε = 2^-52` is accepted by construction, while the claim demands it be
rejected. -/
theorem construction_accepts_exact_epsilon :
    (continuum_mk [("a", eps)] 0).isOk = true := by
  rw [continuum_mk, if_neg]
  · rfl
  · rintro (h | h)
    · simp at h
    · revert h
      decide

/-- C3 amended.  Construction fails (with the invalid-group error) exactly
when the group is empty or its total weight is strictly below machine
epsilon; on failure no continuum value is produced. -/
theorem construction_fails_iff (group : stored_type) (seed : Nat) :
    (continuum_mk group seed).isOk = false ↔
      group.length = 0 ∨ totalWeight group < eps := by
  rw [continuum_mk]
  by_cases h : group.length = 0 ∨ totalWeight group < eps
  · rw [if_pos h]
    exact iff_of_true rfl h
  · rw [if_neg h]
    exact iff_of_false (fun hh => nomatch hh) h

/-- `all()` lists exactly as many tuples as the ring has elements. -/
theorem allTuples_length (group : stored_type) (seed : Nat) :
    (allTuples (continuum_of group seed)).1.length = (ring group).length := by
  show (List.map _ (ring group)).length = _
  rw [List.length_map]

/-- `all()` lists its tuples in ascending (non-decreasing) point order. -/
theorem allTuples_sorted_points (group : stored_type) (seed : Nat) :
    (allTuples (continuum_of group seed)).1.Pairwise (fun a b => a.1 ≤ b.1) := by
  show (List.map (fun e => (e.point, e.value)) (ring group)).Pairwise _
  exact List.Pairwise.map _ (fun a b hab => hab) (ring_sorted group)

/-- A keyed lookup on an accepted group always produces a value. -/
theorem keyedGet_isSome (group : stored_type) (seed : Nat) (key : String)
    (ha : accepted group = true) :
    ((keyedGet (continuum_of group seed) key).1).isSome = true :=
  upperOrFront_isSome (ring_ne_nil ha) (keyPoint key)

/-- What a keyed lookup answers is the identifier of some group member. -/
theorem keyedGet_value_mem_group {group : stored_type} {seed : Nat} {key v : String}
    (h : (keyedGet (continuum_of group seed) key).1 = some v) :
    ∃ m ∈ group, v = m.1 := by
  obtain ⟨e, he, hev⟩ := keyedGet_mem h
  obtain ⟨m, hm, hval, _⟩ := of_mem_buildElements (mem_ring_iff.mp he)
  exact ⟨m, hm, by rw [← hev, hval]⟩

/-! ## C6: the singleton group -/

/-- C6.  For the singleton group `{("alpha", 1.0)}`: the ring has exactly
256 elements, `get(key)` answers `"alpha"` for every key, and `all()` yields
256 tuples in ascending point order. -/
theorem singleton_group_behaviour (seed : Nat) (key : String) :
    (ring [("alpha", (1 : ℚ))]).length = 256 ∧
    (keyedGet (continuum_of [("alpha", (1 : ℚ))] seed) key).1 = some "alpha" ∧
    (allTuples (continuum_of [("alpha", (1 : ℚ))] seed)).1.length = 256 ∧
    (allTuples (continuum_of [("alpha", (1 : ℚ))] seed)).1.Pairwise
      (fun a b => a.1 ≤ b.1) := by
  have hlen : (ring [("alpha", (1 : ℚ))]).length = 256 := by
    rw [ring_length]
    show 4 * stepsOf [("alpha", (1 : ℚ))] 1 + 0 = 256
    decide
  refine ⟨hlen, ?_, ?_, allTuples_sorted_points [("alpha", (1 : ℚ))] seed⟩
  · obtain ⟨v, hv⟩ := Option.isSome_iff_exists.mp
      (keyedGet_isSome [("alpha", (1 : ℚ))] seed key (by decide))
    obtain ⟨m, hm, hvm⟩ := keyedGet_value_mem_group hv
    have hma : m = ("alpha", (1 : ℚ)) := List.mem_singleton.mp hm
    rw [hv, hvm, hma]
  · rw [allTuples_length]
    exact hlen

/-! ## C7: a member whose step count rounds to zero is unreachable -/

/-- C7.  When a member's hash-round count `lround(slice · 64 · L)` is zero,
construction still succeeds, the member contributes no ring elements, and no
keyed lookup can ever answer with that member's identifier. -/
theorem zero_step_member_unreachable (group : stored_type) (seed : Nat)
    (v : String) (w : ℚ)
    (hw : wfGroup group = true) (ha : accepted group = true)
    (hmem : (v, w) ∈ group) (hz : stepsOf group w = 0) :
    (continuum_mk group seed).isOk = true ∧
    memberElements group (v, w) = [] ∧
    (∀ e ∈ ring group, e.value ≠ v) ∧
    (∀ key, (keyedGet (continuum_of group seed) key).1 ≠ some v) := by
  have hnov : ∀ e ∈ ring group, e.value ≠ v := by
    intro e he heq
    obtain ⟨m, hm, hval, hpos⟩ := of_mem_buildElements (mem_ring_iff.mp he)
    have hkey : m.1 = (v, w).1 := by rw [← hval, heq]
    have hmvw : m = (v, w) := wf_key_inj hw m hm (v, w) hmem hkey
    rw [hmvw] at hpos
    exact absurd hz (Nat.pos_iff_ne_zero.mp hpos)
  refine ⟨?_, ?_, hnov, ?_⟩
  · rw [continuum_mk, if_neg]
    · rfl
    · rcases accepted_iff.mp ha with ⟨h1, h2⟩
      rintro (h | h)
      · exact h1 h
      · exact h2 h
  · show (List.range (stepsOf group (v, w).2)).flatMap _ = []
    rw [show (v, w).2 = w from rfl, hz]
    rfl
  · intro key h
    obtain ⟨e, he, hev⟩ := keyedGet_mem h
    exact hnov e he hev

/-- Witness for C7: in `{a ↦ 1, b ↦ 1/1000}` the member `b` rounds to zero
steps (`lround((1/1001) · 128) = lround(0.1279…) = 0`). -/
theorem zero_step_member_unreachable_witness :
    wfGroup [("a", (1 : ℚ)), ("b", mkRat 1 1000)] = true ∧
    accepted [("a", (1 : ℚ)), ("b", mkRat 1 1000)] = true ∧
    ("b", mkRat 1 1000) ∈ ([("a", (1 : ℚ)), ("b", mkRat 1 1000)] : stored_type) ∧
    stepsOf [("a", (1 : ℚ)), ("b", mkRat 1 1000)] (mkRat 1 1000) = 0 ∧
    ((continuum_mk [("a", (1 : ℚ)), ("b", mkRat 1 1000)] 3).isOk = true ∧
     memberElements [("a", (1 : ℚ)), ("b", mkRat 1 1000)] ("b", mkRat 1 1000) = [] ∧
     (∀ e ∈ ring [("a", (1 : ℚ)), ("b", mkRat 1 1000)], e.value ≠ "b") ∧
     (∀ key, (keyedGet (continuum_of [("a", (1 : ℚ)), ("b", mkRat 1 1000)] 3) key).1 ≠
       some "b")) :=
  ⟨by decide, by decide, by decide, by decide,
    zero_step_member_unreachable [("a", (1 : ℚ)), ("b", mkRat 1 1000)] 3 "b" (mkRat 1 1000)
      (by decide) (by decide) (by decide) (by decide)⟩

end Routing
